import Mathlib

/-!
Verification development for the `rlzone` sliding-window rate limiter.

The Go source (`rlzone.go`) is embedded shallowly:

* `time.Time` / `time.Duration` values are modelled as `ℤ` (nanoseconds since
  the zero time); `time.Time.Truncate` for nonnegative instants and a positive
  window is `wndTrunc t w = t - t % w` (Euclidean remainder, i.e. rounding
  down to a multiple of `w`).
* Go maps `map[K]V` with absent keys reading as zero are modelled as total
  functions `K → ℕ`.
* Counter values of the unsigned type `V` wrap modulo `vmax = 2 ^ width`;
  the zone carries `vmax` explicitly.  The Go value `limit : V` always
  satisfies `limit < vmax`, which appears as a hypothesis where needed.
* The `float64` arithmetic of `getWindowValue` is modelled exactly over `ℚ`.
* The mutex only serialises calls; each operation is embedded as a pure
  state transformer.
-/

namespace Rlzone

/-- State of `RatelimitZone[K, V]` from `rlzone.go`.  The `mux` field is not
modelled (operations are atomic state transformers); the counter type `V` is
represented by the wrap-around modulus `vmax`. -/
structure RatelimitZone (K : Type) where
  prevMap : K → ℕ
  currMap : K → ℕ
  prevWndStart : ℤ
  currWndStart : ℤ
  window : ℤ
  limit : ℕ
  vmax : ℕ

variable {K : Type}

/-- `now.Truncate(w)` for a nonnegative instant and positive window:
round down to a multiple of `w` since the zero time. -/
def wndTrunc (t w : ℤ) : ℤ := t - t % w

/-- `getWndMap(wndStart, false)`: the stored map whose window start equals
`ws`, checking the current slot first (as the Go `switch` does). -/
def getWndMap (z : RatelimitZone K) (ws : ℤ) : Option (K → ℕ) :=
  if ws = z.currWndStart then some z.currMap
  else if ws = z.prevWndStart then some z.prevMap
  else none

/-- `getWndMap(wndStart, true)`: like `getWndMap` but a fresh empty map is
produced when neither stored window start matches. -/
def getWndMapC (z : RatelimitZone K) (ws : ℤ) : K → ℕ :=
  (getWndMap z ws).getD (fun _ => 0)

/-- `getCounter`: counter of `key` in the map for window start `ws`,
zero when no stored map matches (a nil map reads as zero). -/
def getCounter (z : RatelimitZone K) (k : K) (ws : ℤ) : ℕ :=
  match getWndMap z ws with
  | some m => m k
  | none => 0

/-- `shiftMaps(prevStart, currStart)`: the previous slot is re-pointed first
(possibly aliasing the stored current map), then the current slot is resolved
against the partially updated state, exactly as the Go code does. -/
def shiftMaps (z : RatelimitZone K) (pS cS : ℤ) : RatelimitZone K :=
  let z1 : RatelimitZone K := { z with prevMap := getWndMapC z pS, prevWndStart := pS }
  { z1 with currMap := getWndMapC z1 cS, currWndStart := cS }

/-- `incCounter(key, wndStart)`: `m[key]++` on the matched map (wrapping at
the counter width), a no-op when no stored map matches. -/
def incCounter [DecidableEq K] (z : RatelimitZone K) (k : K) (ws : ℤ) : RatelimitZone K :=
  if ws = z.currWndStart then
    { z with currMap := fun k' => if k' = k then (z.currMap k + 1) % z.vmax else z.currMap k' }
  else if ws = z.prevWndStart then
    { z with prevMap := fun k' => if k' = k then (z.prevMap k + 1) % z.vmax else z.prevMap k' }
  else z

/-- `getWindowValue(key, prevWndStart, currWndStart, now)`: the weighted
estimate, with Go `float64` arithmetic modelled exactly over `ℚ`. -/
def getWindowValue (z : RatelimitZone K) (k : K) (pS cS now : ℤ) : ℚ :=
  let prevCtr := getCounter z k pS
  let currCtr := getCounter z k cS
  let multiplier : ℚ := 1 - (((now - cS : ℤ) : ℚ) / ((z.window : ℤ) : ℚ))
  (prevCtr : ℚ) * multiplier + (currCtr : ℚ)

/-- `getTimePoints()`: requested previous window start, current window start
and the captured instant `now`. -/
def getTimePoints (z : RatelimitZone K) (now : ℤ) : ℤ × ℤ × ℤ :=
  (wndTrunc now z.window - z.window, wndTrunc now z.window, now)

/-- `Allow(key)` at instant `now`: returns the decision and the new state. -/
def Allow [DecidableEq K] (z : RatelimitZone K) (k : K) (now : ℤ) : Bool × RatelimitZone K :=
  let tp := getTimePoints z now
  let val := getWindowValue z k tp.1 tp.2.1 tp.2.2
  if (z.limit : ℚ) < val + 1 then (false, z)
  else
    let z' := shiftMaps z tp.1 tp.2.1
    (true, incCounter z' k tp.2.1)

/-- `GetWindowValue(key)` at instant `now`, with its (absent) state effect
made explicit: the Go method only reads under the mutex, so the state
component is returned unchanged. -/
def GetWindowValueST (z : RatelimitZone K) (k : K) (now : ℤ) : ℚ × RatelimitZone K :=
  let tp := getTimePoints z now
  (getWindowValue z k tp.1 tp.2.1 tp.2.2, z)

/-- `GetWindowValue(key)`: the returned estimate. -/
def GetWindowValue (z : RatelimitZone K) (k : K) (now : ℤ) : ℚ :=
  (GetWindowValueST z k now).1

/-- Modelled from the spec: `AllowN(key, n)` is exercised by
`TestAllowN` in `rlzone_test.go` but its implementation is not among the
provided sources.  Per the spec it follows the same protocol as `Allow` but
reserves `n` units atomically: it denies with no mutation at all when
`estimate + n > limit`, and otherwise increments the current-window counter
by `n` and allows. -/
def AllowN [DecidableEq K] (z : RatelimitZone K) (k : K) (n : ℕ) (now : ℤ) : Bool × RatelimitZone K :=
  let tp := getTimePoints z now
  let val := getWindowValue z k tp.1 tp.2.1 tp.2.2
  if (z.limit : ℚ) < val + (n : ℚ) then (false, z)
  else
    let z' := shiftMaps z tp.1 tp.2.1
    (true, { z' with currMap := fun k' => if k' = k then (z'.currMap k + n) % z'.vmax else z'.currMap k' })

/-- Errors from the `New` constructor. -/
inductive NewError where
  | zeroWindow : NewError
  | zeroLimit : NewError
deriving DecidableEq

/-- The freshly constructed zone: empty maps, zero (unset) window starts. -/
def initZone (K : Type) (w : ℤ) (limit vmax : ℕ) : RatelimitZone K :=
  { prevMap := fun _ => 0
    currMap := fun _ => 0
    prevWndStart := 0
    currWndStart := 0
    window := w
    limit := limit
    vmax := vmax }

/-- `New(window, limit)`: validation and construction.  `vmax` is the
wrap-around modulus of the instantiated counter type `V`. -/
def New (K : Type) (w : ℤ) (limit vmax : ℕ) : Except NewError (RatelimitZone K) :=
  if w ≤ 0 then .error .zeroWindow
  else if limit = 0 then .error .zeroLimit
  else .ok (initZone K w limit vmax)

/-- The counter width (in bits) selected by the `switch` in `NewSmallest`. -/
def smallestWidth (limit : ℕ) : ℕ :=
  if limit ≤ 255 then 8
  else if limit ≤ 65535 then 16
  else if limit ≤ 4294967295 then 32
  else 64

/-- `NewSmallest(window, limit)`: construct with the narrowest counter type
that fits `limit`. -/
def NewSmallest (K : Type) (w : ℤ) (limit : ℕ) : Except NewError (RatelimitZone K) :=
  New K w limit (2 ^ smallestWidth limit)

/-- Errors from `FromString`; parse failures wrap the underlying error kind
and constructor failures are propagated. -/
inductive FromStringError where
  | missingSlash : FromStringError
  | badCount : FromStringError
  | badDuration : FromStringError
  | construction : NewError → FromStringError
deriving DecidableEq

/-- `strings.SplitN(s, "/", 2)`: split at the first slash; `none` when the
string has no slash (the Go call then yields a single part). -/
def splitN2 : List Char → Option (List Char × List Char)
  | [] => none
  | c :: rest =>
    if c = '/' then some ([], rest)
    else (splitN2 rest).map (fun p => (c :: p.1, p.2))

/-- `FromString(limiterSpec)`.  The two external parsers
(`strconv.ParseUint` and `time.ParseDuration`, both outside this
repository) are abstracted as function parameters returning `none` on a
malformed segment. -/
def FromString (parseUint : List Char → Option ℕ) (parseDuration : List Char → Option ℤ)
    (s : List Char) : Except FromStringError (RatelimitZone K) :=
  match splitN2 s with
  | none => .error .missingSlash
  | some (p0, p1) =>
    match parseUint p0 with
    | none => .error .badCount
    | some count =>
      match parseDuration p1 with
      | none => .error .badDuration
      | some w =>
        match NewSmallest K w count with
        | .error e => .error (.construction e)
        | .ok z => .ok z

/-- Error projection of an `Except` result. -/
def errOf {E A : Type} : Except E A → Option E
  | .error e => some e
  | .ok _ => none

/-- Fold a list of timed `Allow` calls over a zone, recording for each call
its key and boolean outcome. -/
def runAllows [DecidableEq K] (z : RatelimitZone K) :
    List (ℤ × K) → RatelimitZone K × List (K × Bool)
  | [] => (z, [])
  | (t, k) :: rest =>
    let r := Allow z k t
    let rr := runAllows r.2 rest
    (rr.1, (k, r.1) :: rr.2)

/-! ### Basic facts about window truncation -/

theorem wndTrunc_le (t w : ℤ) (hw : 0 < w) : wndTrunc t w ≤ t := by
  have := Int.emod_nonneg t (by omega : w ≠ 0)
  simp only [wndTrunc]; omega

theorem sub_wndTrunc_nonneg (t w : ℤ) (hw : 0 < w) : 0 ≤ t - wndTrunc t w := by
  have := Int.emod_nonneg t (by omega : w ≠ 0)
  simp only [wndTrunc]; omega

theorem sub_wndTrunc_lt (t w : ℤ) (hw : 0 < w) : t - wndTrunc t w < w := by
  have := Int.emod_lt_of_pos t hw
  simp only [wndTrunc]; omega

theorem wndTrunc_dvd (t w : ℤ) : w ∣ wndTrunc t w :=
  ⟨t / w, by have := Int.emod_add_ediv t w; simp only [wndTrunc]; omega⟩

theorem wndTrunc_mono (t t' w : ℤ) (hw : 0 < w) (h : t ≤ t') :
    wndTrunc t w ≤ wndTrunc t' w := by
  have h1 : wndTrunc t w = w * (t / w) := by
    have := Int.emod_add_ediv t w; simp only [wndTrunc]; omega
  have h2 : wndTrunc t' w = w * (t' / w) := by
    have := Int.emod_add_ediv t' w; simp only [wndTrunc]; omega
  rw [h1, h2]
  exact mul_le_mul_of_nonneg_left (Int.ediv_le_ediv hw h) (by omega)

theorem wndTrunc_zero (w : ℤ) : wndTrunc 0 w = 0 := by
  simp [wndTrunc]

/-- Between two multiples of `w` with `a < b` there is room for a full `w`. -/
theorem dvd_lt_le_sub (w a b : ℤ) (hw : 0 < w) (ha : w ∣ a) (hb : w ∣ b)
    (h : a < b) : a + w ≤ b := by
  have hd : w ∣ b - a := dvd_sub hb ha
  have := Int.le_of_dvd (by omega) hd
  omega

/-! ### Claim C2: what rotation actually does -/

/-- A concrete zone with a nonzero count in the current window, stored
window pair `(0, 10)`. -/
def zoneC2 : RatelimitZone ℕ :=
  { prevMap := fun _ => 0
    currMap := fun k => if k = 0 then 3 else 0
    prevWndStart := 0
    currWndStart := 10
    window := 10
    limit := 5
    vmax := 256 }

/-- Claim C2 counterexample: at `now = 25` the requested window pair
`(10, 20)` differs from the stored `(0, 10)`, yet `shiftMaps` does not
install fresh empty maps: the count `3` of key `0` from the old current
window survives into the new previous mapping. -/
theorem shiftMaps_fresh_maps_cex :
    wndTrunc 25 zoneC2.window = 20 ∧
    ((10 : ℤ), (20 : ℤ)) ≠ (zoneC2.prevWndStart, zoneC2.currWndStart) ∧
    (shiftMaps zoneC2 10 20).prevMap 0 = 3 ∧
    (shiftMaps zoneC2 10 20).prevMap 0 ≠ 0 := by
  refine ⟨by decide, by decide, ?_, ?_⟩ <;>
    simp [shiftMaps, getWndMapC, getWndMap, zoneC2]

/-- Claim C2 (amended): the rotation re-points each slot to the stored
mapping whose window start equals the just-computed one (checking the
current slot first, then the previous slot, the previous slot being
re-pointed before the current slot is resolved), allocates a fresh empty
map only when neither stored start matches, and updates both stored window
starts; in particular when the requested previous start equals the stored
current start (a one-window advance) the old current mapping, counts
included, becomes the new previous mapping. -/
theorem shiftMaps_spec (z : RatelimitZone K) (pS cS : ℤ) :
    (shiftMaps z pS cS).prevWndStart = pS ∧
    (shiftMaps z pS cS).currWndStart = cS ∧
    (shiftMaps z pS cS).window = z.window ∧
    (shiftMaps z pS cS).limit = z.limit ∧
    (shiftMaps z pS cS).vmax = z.vmax ∧
    (shiftMaps z pS cS).prevMap =
      (if pS = z.currWndStart then z.currMap
       else if pS = z.prevWndStart then z.prevMap
       else fun _ => 0) ∧
    (shiftMaps z pS cS).currMap =
      (if cS = z.currWndStart then z.currMap
       else if cS = pS then (shiftMaps z pS cS).prevMap
       else fun _ => 0) := by
  refine ⟨rfl, rfl, rfl, rfl, rfl, ?_, ?_⟩ <;>
    · simp only [shiftMaps, getWndMapC, getWndMap]
      split_ifs <;> rfl

/-! ### Claim C3: the estimate formula -/

/-- The claim's reading of a per-window count: the stored mapping whose
window start matches `ws` (a mapping whose start does not match, or an
absent key, counts as zero). -/
def specCount (z : RatelimitZone K) (k : K) (ws : ℤ) : ℕ :=
  if z.currWndStart = ws then z.currMap k
  else if z.prevWndStart = ws then z.prevMap k
  else 0

theorem getCounter_eq_specCount (z : RatelimitZone K) (k : K) (ws : ℤ) :
    getCounter z k ws = specCount z k ws := by
  simp only [getCounter, getWndMap, specCount]
  by_cases h1 : ws = z.currWndStart
  · subst h1; simp
  · by_cases h2 : ws = z.prevWndStart
    · subst h2; simp [h1, Ne.symm h1]
    · simp [h1, h2, Ne.symm h1, Ne.symm h2]

/-- Claim C3: with `currentWindowStart = now` truncated down to a multiple
of `window`, `GetWindowValue key` returns
`previousCount(key) * (1 - (now - currentWindowStart) / window) +
currentCount(key)`, where a key absent from a mapping, or a mapping whose
window start does not match, counts as zero. -/
theorem getWindowValue_formula (z : RatelimitZone K) (k : K) (now : ℤ) :
    GetWindowValue z k now =
      (specCount z k (wndTrunc now z.window - z.window) : ℚ) *
          (1 - ((now - wndTrunc now z.window : ℤ) : ℚ) / ((z.window : ℤ) : ℚ)) +
        (specCount z k (wndTrunc now z.window) : ℚ) := by
  simp only [GetWindowValue, GetWindowValueST, getTimePoints, getWindowValue,
    getCounter_eq_specCount]

/-! ### Claim C5: construction failures -/

/-- Claim C5: construction fails exactly on the listed invalid inputs.
`New` errors precisely when `window ≤ 0` (invalid window, checked first) or
`limit = 0` (invalid limit), and otherwise yields a zone with empty
current/previous mappings and unset (zero) window starts; `FromString`
fails with the missing-separator error when the specification has no
slash (and `splitN2` detects exactly the absence of `'/'`), fails wrapping
the underlying parse failure when the count or the duration segment is
malformed, and otherwise delegates to the counter-width-selecting
constructor, propagating its validation errors. -/
theorem construction_errors_spec :
    (∀ (w : ℤ) (l v : ℕ), (∃ z, New ℕ w l v = .ok z) ↔ ¬(w ≤ 0 ∨ l = 0)) ∧
    (∀ (w : ℤ) (l v : ℕ), w ≤ 0 → New ℕ w l v = .error .zeroWindow) ∧
    (∀ (w : ℤ) (l v : ℕ), ¬(w ≤ 0) → l = 0 → New ℕ w l v = .error .zeroLimit) ∧
    (∀ (w : ℤ) (l v : ℕ) (z : RatelimitZone ℕ), New ℕ w l v = .ok z →
      (∀ k, z.currMap k = 0) ∧ (∀ k, z.prevMap k = 0) ∧
      z.currWndStart = 0 ∧ z.prevWndStart = 0 ∧ z.window = w ∧ z.limit = l) ∧
    (∀ s, splitN2 s = none ↔ '/' ∉ s) ∧
    (∀ pu pd s, splitN2 s = none →
      FromString (K := ℕ) pu pd s = .error .missingSlash) ∧
    (∀ pu pd s a b, splitN2 s = some (a, b) → pu a = none →
      FromString (K := ℕ) pu pd s = .error .badCount) ∧
    (∀ pu pd s a b c, splitN2 s = some (a, b) → pu a = some c → pd b = none →
      FromString (K := ℕ) pu pd s = .error .badDuration) ∧
    (∀ pu pd s a b c w, splitN2 s = some (a, b) → pu a = some c → pd b = some w →
      errOf (FromString (K := ℕ) pu pd s) =
        (errOf (NewSmallest ℕ w c)).map .construction ∧
      (∀ z, NewSmallest ℕ w c = .ok z → FromString (K := ℕ) pu pd s = .ok z)) := by
  refine ⟨?_, ?_, ?_, ?_, ?_, ?_, ?_, ?_, ?_⟩
  · intro w l v
    constructor
    · rintro ⟨z, hz⟩ h
      simp only [New] at hz
      rcases h with h | h
      · rw [if_pos h] at hz; exact Except.noConfusion hz
      · rw [if_neg, if_pos h] at hz
        · exact Except.noConfusion hz
        · intro hw
          rw [if_pos hw] at hz; exact Except.noConfusion hz
    · intro h
      push_neg at h
      refine ⟨initZone ℕ w l v, ?_⟩
      simp only [New]
      rw [if_neg (by omega : ¬ w ≤ 0), if_neg h.2]
  · intro w l v h; simp [New, h]
  · intro w l v hw hl; simp [New, hw, hl]
  · intro w l v z hz
    simp only [New] at hz
    split_ifs at hz
    cases hz
    exact ⟨fun _ => rfl, fun _ => rfl, rfl, rfl, rfl, rfl⟩
  · intro s
    induction s with
    | nil => simp [splitN2]
    | cons c rest ih =>
      by_cases hc : c = '/'
      · simp [splitN2, hc]
      · simp [splitN2, hc, Option.map_eq_none, ih, Ne.symm hc]
  · intro pu pd s h; simp [FromString, h]
  · intro pu pd s a b hs hp; simp [FromString, hs, hp]
  · intro pu pd s a b c hs hp hd; simp [FromString, hs, hp, hd]
  · intro pu pd s a b c w hs hp hd
    constructor
    · simp only [FromString, hs, hp, hd]
      cases h : NewSmallest ℕ w c <;> simp [errOf, h]
    · intro z hz
      simp [FromString, hs, hp, hd, hz]

/-- Witness for claim C5's conditional clauses, at concrete inputs: the
string `bad` has no slash and is rejected with the missing-separator
error; `New` rejects a zero window. -/
theorem construction_errors_spec_witness :
    splitN2 ['b', 'a', 'd'] = none ∧
    FromString (K := ℕ) (fun _ => none) (fun _ => none) ['b', 'a', 'd'] =
      .error .missingSlash ∧
    (0 : ℤ) ≤ 0 ∧
    New ℕ 0 10 256 = .error .zeroWindow :=
  ⟨by decide,
   construction_errors_spec.2.2.2.2.2.1 (fun _ => none) (fun _ => none)
     ['b', 'a', 'd'] (by decide),
   le_refl 0,
   construction_errors_spec.2.1 0 10 256 (le_refl 0)⟩

/-! ### Claim C6: counter width selection -/

/-- Claim C6: `NewSmallest` selects the narrowest unsigned width whose
maximum representable value is at least the limit: 8-bit when
`limit ≤ 255`, 16-bit when `256 ≤ limit ≤ 65535`, 32-bit when
`65536 ≤ limit ≤ 4294967295`, 64-bit otherwise; the selected width always
fits the limit, no listed narrower width does, and the constructed zone
wraps its counters at `2 ^ width`. -/
theorem newSmallest_width_spec (l : ℕ) (h64 : l < 2 ^ 64) :
    (l ≤ 255 → smallestWidth l = 8) ∧
    (256 ≤ l → l ≤ 65535 → smallestWidth l = 16) ∧
    (65536 ≤ l → l ≤ 4294967295 → smallestWidth l = 32) ∧
    (4294967296 ≤ l → smallestWidth l = 64) ∧
    l ≤ 2 ^ smallestWidth l - 1 ∧
    (∀ d, (d = 8 ∨ d = 16 ∨ d = 32 ∨ d = 64) → l ≤ 2 ^ d - 1 →
      smallestWidth l ≤ d) ∧
    (∀ (w : ℤ) (z : RatelimitZone ℕ), NewSmallest ℕ w l = .ok z →
      z.vmax = 2 ^ smallestWidth l) := by
  have hpows : (2 : ℕ) ^ 8 = 256 ∧ (2 : ℕ) ^ 16 = 65536 ∧
      (2 : ℕ) ^ 32 = 4294967296 ∧ (2 : ℕ) ^ 64 = 18446744073709551616 := by
    norm_num
  refine ⟨?_, ?_, ?_, ?_, ?_, ?_, ?_⟩
  · intro h; simp [smallestWidth, h]
  · intro h1 h2; simp [smallestWidth, h2]; omega
  · intro h1 h2
    simp only [smallestWidth]
    rw [if_neg (by omega), if_neg (by omega), if_pos h2]
  · intro h
    simp only [smallestWidth]
    rw [if_neg (by omega), if_neg (by omega), if_neg (by omega)]
  · simp only [smallestWidth]
    split_ifs with h1 h2 h3 <;> omega
  · intro d hd hld
    simp only [smallestWidth]
    rcases hd with h | h | h | h <;> subst h <;> split_ifs <;> omega
  · intro w z hz
    simp only [NewSmallest, New] at hz
    split_ifs at hz
    cases hz; rfl

/-- Witness for claim C6 at the test suite's boundary values. -/
theorem newSmallest_width_spec_witness :
    (256 : ℕ) < 2 ^ 64 ∧
    (smallestWidth 256 = 16 ∧ 256 ≤ 2 ^ smallestWidth 256 - 1) := by
  have h := newSmallest_width_spec 256 (by norm_num)
  exact ⟨by norm_num, h.2.1 (by norm_num) (by norm_num), h.2.2.2.2.1⟩

/-! ### Per-operation lemmas

`TimeOK` below captures the one aspect of the clock model the operations
depend on: the requested current window start either matches the stored
current start or differs from the stored previous start.  It holds in the
fresh zone and whenever the clock has not jumped backwards past the stored
current window (the spec's clock model), as the trace invariants further
below make precise. -/

theorem getWndMapC_apply (z : RatelimitZone K) (ws : ℤ) (k : K) :
    getWndMapC z ws k = getCounter z k ws := by
  cases h : getWndMap z ws <;> simp [getWndMapC, getCounter, h]

theorem getCounter_shiftMaps_prev (z : RatelimitZone K) (pS cS : ℤ) (k : K)
    (hne : pS ≠ cS) :
    getCounter (shiftMaps z pS cS) k pS = getCounter z k pS := by
  have h1 : (shiftMaps z pS cS).currWndStart = cS := rfl
  have h2 : (shiftMaps z pS cS).prevWndStart = pS := rfl
  have h3 : (shiftMaps z pS cS).prevMap = getWndMapC z pS := rfl
  simp only [getCounter, getWndMap, h1, h2, h3, if_neg hne, if_pos rfl]
  exact getWndMapC_apply z pS k

theorem getCounter_shiftMaps_curr (z : RatelimitZone K) (pS cS : ℤ) (k : K)
    (hne : cS ≠ pS) (hTO : cS = z.currWndStart ∨ cS ≠ z.prevWndStart) :
    getCounter (shiftMaps z pS cS) k cS = getCounter z k cS := by
  have h1 : (shiftMaps z pS cS).currMap =
      (if cS = z.currWndStart then z.currMap
       else if cS = pS then getWndMapC z pS else fun _ => 0) := by
    simp only [shiftMaps, getWndMapC, getWndMap]
    split_ifs <;> rfl
  have hcw : (shiftMaps z pS cS).currWndStart = cS := rfl
  have h2 : getCounter (shiftMaps z pS cS) k cS = (shiftMaps z pS cS).currMap k := by
    simp [getCounter, getWndMap, hcw]
  rw [h2, h1]
  by_cases hc : cS = z.currWndStart
  · simp [getCounter, getWndMap, hc]
  · rcases hTO with h | h
    · exact absurd h hc
    · simp [getCounter, getWndMap, hc, hne, h]

theorem getWindowValue_shiftMaps (z : RatelimitZone K) (k : K) (pS cS now : ℤ)
    (hw : 0 < z.window) (hpc : pS = cS - z.window)
    (hTO : cS = z.currWndStart ∨ cS ≠ z.prevWndStart) :
    getWindowValue (shiftMaps z pS cS) k pS cS now = getWindowValue z k pS cS now := by
  have hne : pS ≠ cS := by omega
  have hww : (shiftMaps z pS cS).window = z.window := rfl
  simp only [getWindowValue, hww,
    getCounter_shiftMaps_prev z pS cS k hne,
    getCounter_shiftMaps_curr z pS cS k (by omega) hTO]

theorem multiplier_nonneg (now w : ℤ) (hw : 0 < w) :
    0 ≤ 1 - ((now - wndTrunc now w : ℤ) : ℚ) / ((w : ℤ) : ℚ) := by
  have h1 : 0 ≤ now - wndTrunc now w := sub_wndTrunc_nonneg now w hw
  have h2 : now - wndTrunc now w < w := sub_wndTrunc_lt now w hw
  have hwq : (0 : ℚ) < ((w : ℤ) : ℚ) := by exact_mod_cast hw
  have : ((now - wndTrunc now w : ℤ) : ℚ) / ((w : ℤ) : ℚ) ≤ 1 := by
    rw [div_le_one hwq]
    exact_mod_cast le_of_lt h2
  linarith

/-- The current-window counter never exceeds the weighted estimate. -/
theorem currCtr_le_getWindowValue (z : RatelimitZone K) (k : K) (now : ℤ)
    (hw : 0 < z.window) :
    (getCounter z k (wndTrunc now z.window) : ℚ) ≤
      getWindowValue z k (wndTrunc now z.window - z.window) (wndTrunc now z.window) now := by
  simp only [getWindowValue]
  have hm := multiplier_nonneg now z.window hw
  have hp : (0 : ℚ) ≤ (getCounter z k (wndTrunc now z.window - z.window) : ℚ) := by
    positivity
  nlinarith

theorem getCounter_incCounter_curr [DecidableEq K] (z : RatelimitZone K) (k : K) (ws : ℤ)
    (h : ws = z.currWndStart) :
    getCounter (incCounter z k ws) k ws = (z.currMap k + 1) % z.vmax := by
  subst h
  simp [incCounter, getCounter, getWndMap]

/-! ### Claim C1: the `Allow` decision -/

/-- Claim C1: `Allow key` returns `false` exactly when the weighted
estimate plus one exceeds the limit, and then the state (in particular the
key's counter) is untouched; otherwise it increments the key's
current-window counter by exactly one and returns `true`.  The hypotheses
are invariants of every state the limiter can reach under the spec's clock
model: a positive window, a limit representable in the counter type, and a
requested current window start that either matches the stored current
start or differs from the stored previous start (automatic when the clock
has not moved backwards past the stored current window; see the trace
invariants below). -/
theorem allow_decision_spec [DecidableEq K] (z : RatelimitZone K) (k : K) (now : ℤ)
    (hw : 0 < z.window) (hlv : z.limit < z.vmax)
    (hTO : wndTrunc now z.window = z.currWndStart ∨
      wndTrunc now z.window ≠ z.prevWndStart) :
    ((Allow z k now).1 = false ↔
      (z.limit : ℚ) <
        getWindowValue z k (wndTrunc now z.window - z.window) (wndTrunc now z.window) now + 1) ∧
    ((z.limit : ℚ) <
        getWindowValue z k (wndTrunc now z.window - z.window) (wndTrunc now z.window) now + 1 →
      (Allow z k now).2 = z) ∧
    (¬ (z.limit : ℚ) <
        getWindowValue z k (wndTrunc now z.window - z.window) (wndTrunc now z.window) now + 1 →
      (Allow z k now).1 = true ∧
      getCounter (Allow z k now).2 k (wndTrunc now z.window) =
        getCounter z k (wndTrunc now z.window) + 1) := by
  set cS := wndTrunc now z.window with hcS
  set pS := cS - z.window with hpS
  set val := getWindowValue z k pS cS now with hval
  by_cases h : (z.limit : ℚ) < val + 1
  · refine ⟨?_, fun _ => ?_, fun hc => absurd h hc⟩
    · simp [Allow, getTimePoints, ← hcS, ← hpS, ← hval, h]
    · simp [Allow, getTimePoints, ← hcS, ← hpS, ← hval, h]
  · have hres : Allow z k now = (true, incCounter (shiftMaps z pS cS) k cS) := by
      simp [Allow, getTimePoints, ← hcS, ← hpS, ← hval, h]
    refine ⟨?_, fun hc => absurd hc h, fun _ => ⟨by simp [hres], ?_⟩⟩
    · simp [hres, h]
    · have hshift : (shiftMaps z pS cS).currWndStart = cS := rfl
      have hvmax : (shiftMaps z pS cS).vmax = z.vmax := rfl
      have hcm : (shiftMaps z pS cS).currMap k = getCounter z k cS := by
        have := getCounter_shiftMaps_curr z pS cS k (by omega) hTO
        rw [← this]
        simp [getCounter, getWndMap, hshift]
      rw [hres]
      simp only
      rw [getCounter_incCounter_curr _ k cS hshift.symm, hvmax, hcm]
      have hle : (getCounter z k cS : ℚ) ≤ val := currCtr_le_getWindowValue z k now hw
      have hb : getCounter z k cS + 1 ≤ z.limit := by
        have : (getCounter z k cS : ℚ) + 1 ≤ (z.limit : ℚ) := by linarith [not_lt.mp h]
        exact_mod_cast this
      exact Nat.mod_eq_of_lt (by omega)

/-- Concrete zone for the claim C1 witness: one window advance pending. -/
def zoneC1 : RatelimitZone ℕ :=
  { prevMap := fun _ => 0
    currMap := fun k => if k = 0 then 3 else 0
    prevWndStart := 0
    currWndStart := 10
    window := 10
    limit := 5
    vmax := 256 }

/-- Witness for claim C1 at a concrete state and instant. -/
theorem allow_decision_spec_witness :
    ((0 : ℤ) < zoneC1.window ∧ zoneC1.limit < zoneC1.vmax ∧
      (wndTrunc 20 zoneC1.window = zoneC1.currWndStart ∨
        wndTrunc 20 zoneC1.window ≠ zoneC1.prevWndStart)) ∧
    ((Allow zoneC1 0 20).1 = false ↔
      (zoneC1.limit : ℚ) <
        getWindowValue zoneC1 0 (wndTrunc 20 zoneC1.window - zoneC1.window)
          (wndTrunc 20 zoneC1.window) 20 + 1) :=
  ⟨⟨by decide, by decide, by decide⟩,
   (allow_decision_spec zoneC1 0 20 (by decide) (by decide) (by decide)).1⟩

/-! ### Claim C7: bulk admission -/

/-- Claim C7 (spec-modelled `AllowN`): `AllowN key n` denies with no
mutation at all when the estimate plus `n` exceeds the limit, and
otherwise increments the current-window counter by exactly `n` and allows;
it never partially reserves.  Hypotheses as for claim C1. -/
theorem allowN_spec [DecidableEq K] (z : RatelimitZone K) (k : K) (n : ℕ) (now : ℤ)
    (hw : 0 < z.window) (hlv : z.limit < z.vmax)
    (hTO : wndTrunc now z.window = z.currWndStart ∨
      wndTrunc now z.window ≠ z.prevWndStart) :
    ((AllowN z k n now).1 = false ↔
      (z.limit : ℚ) <
        getWindowValue z k (wndTrunc now z.window - z.window) (wndTrunc now z.window) now + n) ∧
    ((z.limit : ℚ) <
        getWindowValue z k (wndTrunc now z.window - z.window) (wndTrunc now z.window) now + n →
      (AllowN z k n now).2 = z) ∧
    (¬ (z.limit : ℚ) <
        getWindowValue z k (wndTrunc now z.window - z.window) (wndTrunc now z.window) now + n →
      (AllowN z k n now).1 = true ∧
      getCounter (AllowN z k n now).2 k (wndTrunc now z.window) =
        getCounter z k (wndTrunc now z.window) + n) := by
  set cS := wndTrunc now z.window with hcS
  set pS := cS - z.window with hpS
  set val := getWindowValue z k pS cS now with hval
  by_cases h : (z.limit : ℚ) < val + n
  · refine ⟨?_, fun _ => ?_, fun hc => absurd h hc⟩
    · simp [AllowN, getTimePoints, ← hcS, ← hpS, ← hval, h]
    · simp [AllowN, getTimePoints, ← hcS, ← hpS, ← hval, h]
  · set zfin : RatelimitZone K :=
      { shiftMaps z pS cS with
        currMap := fun k' =>
          if k' = k then ((shiftMaps z pS cS).currMap k + n) % (shiftMaps z pS cS).vmax
          else (shiftMaps z pS cS).currMap k' } with hzfin
    have hres : AllowN z k n now = (true, zfin) := by
      simp [AllowN, getTimePoints, ← hcS, ← hpS, ← hval, h, hzfin]
    refine ⟨?_, fun hc => absurd hc h, fun _ => ⟨by simp [hres], ?_⟩⟩
    · simp [hres, h]
    · have hshift : (shiftMaps z pS cS).currWndStart = cS := rfl
      have hvmax : (shiftMaps z pS cS).vmax = z.vmax := rfl
      have hcm : (shiftMaps z pS cS).currMap k = getCounter z k cS := by
        have := getCounter_shiftMaps_curr z pS cS k (by omega) hTO
        rw [← this]
        simp [getCounter, getWndMap, hshift]
      have hfin : getCounter zfin k cS = ((shiftMaps z pS cS).currMap k + n) % z.vmax := by
        simp [hzfin, getCounter, getWndMap, hshift, hvmax]
      rw [hres]
      simp only
      rw [hfin, hcm]
      have hle : (getCounter z k cS : ℚ) ≤ val := currCtr_le_getWindowValue z k now hw
      have hb : getCounter z k cS + n ≤ z.limit := by
        have : (getCounter z k cS : ℚ) + n ≤ (z.limit : ℚ) := by linarith [not_lt.mp h]
        exact_mod_cast this
      exact Nat.mod_eq_of_lt (by omega)

/-- Concrete zone for the claim C7 witness. -/
def zoneC7 : RatelimitZone ℕ :=
  { prevMap := fun _ => 0
    currMap := fun _ => 0
    prevWndStart := 0
    currWndStart := 0
    window := 10
    limit := 20
    vmax := 256 }

/-- Witness for claim C7: `AllowN` on the fresh zone of `TestAllowN`. -/
theorem allowN_spec_witness :
    ((0 : ℤ) < zoneC7.window ∧ zoneC7.limit < zoneC7.vmax ∧
      (wndTrunc 5 zoneC7.window = zoneC7.currWndStart ∨
        wndTrunc 5 zoneC7.window ≠ zoneC7.prevWndStart)) ∧
    ((AllowN zoneC7 0 20 5).1 = false ↔
      (zoneC7.limit : ℚ) <
        getWindowValue zoneC7 0 (wndTrunc 5 zoneC7.window - zoneC7.window)
          (wndTrunc 5 zoneC7.window) 5 + 20) :=
  ⟨⟨by decide, by decide, by decide⟩,
   (allowN_spec zoneC7 0 20 5 (by decide) (by decide) (by decide)).1⟩

/-! ### Claim C8: `GetWindowValue` is read-only and does not rotate -/

/-- Concrete stale zone for the claim C8 counterexample. -/
def zoneC8 : RatelimitZone ℕ :=
  { prevMap := fun _ => 0
    currMap := fun k => if k = 0 then 3 else 0
    prevWndStart := 0
    currWndStart := 10
    window := 10
    limit := 5
    vmax := 256 }

/-- Claim C8 counterexample: at `now = 25` the stored window state of
`zoneC8` is stale (rotation would move the stored current window start
from `10` to `20`), yet `GetWindowValue` leaves the state exactly as it
was: it performs no window rotation. -/
theorem getWindowValue_rotation_cex :
    (GetWindowValueST zoneC8 0 25).2 = zoneC8 ∧
    (GetWindowValueST zoneC8 0 25).2.currWndStart ≠
      (shiftMaps zoneC8 (wndTrunc 25 zoneC8.window - zoneC8.window)
        (wndTrunc 25 zoneC8.window)).currWndStart :=
  ⟨rfl, by decide⟩

/-- Claim C8 (amended): `GetWindowValue key` performs the same
time-bucketing and estimate computation as `Allow` but mutates nothing at
all — neither a rotation nor an increment; nevertheless the estimate it
returns equals the estimate computed against the rotated state for the
requested window starts, so the missing rotation cannot make it
misreport.  Hypotheses as for claim C1. -/
theorem getWindowValue_readonly_spec (z : RatelimitZone K) (k : K) (now : ℤ)
    (hw : 0 < z.window)
    (hTO : wndTrunc now z.window = z.currWndStart ∨
      wndTrunc now z.window ≠ z.prevWndStart) :
    (GetWindowValueST z k now).2 = z ∧
    (GetWindowValueST z k now).1 =
      getWindowValue (shiftMaps z (wndTrunc now z.window - z.window) (wndTrunc now z.window))
        k (wndTrunc now z.window - z.window) (wndTrunc now z.window) now := by
  refine ⟨rfl, ?_⟩
  rw [getWindowValue_shiftMaps z k (wndTrunc now z.window - z.window)
    (wndTrunc now z.window) now hw rfl hTO]
  rfl

/-- Witness for claim C8's amended theorem, at the counterexample state. -/
theorem getWindowValue_readonly_spec_witness :
    ((0 : ℤ) < zoneC8.window ∧
      (wndTrunc 25 zoneC8.window = zoneC8.currWndStart ∨
        wndTrunc 25 zoneC8.window ≠ zoneC8.prevWndStart)) ∧
    (GetWindowValueST zoneC8 0 25).2 = zoneC8 :=
  ⟨⟨by decide, by decide⟩,
   (getWindowValue_readonly_spec zoneC8 0 25 (by decide) (by decide)).1⟩

/-! ### Claim C10: check-then-rotate versus rotate-then-check -/

/-- The rotate-then-check ordering of `Allow` described by claim C10
(comparison definition, written from the claim): rotate the maps for the
requested window starts first, then evaluate the estimate and decide. -/
def AllowRotateFirst [DecidableEq K] (z : RatelimitZone K) (k : K) (now : ℤ) :
    Bool × RatelimitZone K :=
  let tp := getTimePoints z now
  let z' := shiftMaps z tp.1 tp.2.1
  let val := getWindowValue z' k tp.1 tp.2.1 tp.2.2
  if (z'.limit : ℚ) < val + 1 then (false, z')
  else (true, incCounter z' k tp.2.1)

/-- Concrete zone for the claim C10 counterexample: a denied call with a
pending one-window rotation. -/
def zoneC10 : RatelimitZone ℕ :=
  { prevMap := fun _ => 0
    currMap := fun k => if k = 0 then 5 else 0
    prevWndStart := 0
    currWndStart := 10
    window := 10
    limit := 5
    vmax := 256 }

/-- Claim C10 counterexample: at `now = 20` (ordinary forward time) both
orderings deny, but the final states are not identical — check-then-rotate
leaves the stale stored window starts while rotate-then-check has already
advanced them. -/
theorem check_then_rotate_cex :
    (Allow zoneC10 0 20).1 = false ∧
    (AllowRotateFirst zoneC10 0 20).1 = false ∧
    (Allow zoneC10 0 20).2.currWndStart ≠
      (AllowRotateFirst zoneC10 0 20).2.currWndStart := by
  have htp : getTimePoints zoneC10 20 = (10, 20, 20) := by decide
  have hval : getWindowValue zoneC10 0 10 20 20 = 5 := by
    have hg : getCounter zoneC10 0 10 = 5 := by decide
    have hg2 : getCounter zoneC10 0 20 = 0 := by decide
    simp only [getWindowValue, hg, hg2]
    norm_num [zoneC10]
  have hval' : getWindowValue (shiftMaps zoneC10 10 20) 0 10 20 20 = 5 := by
    rw [getWindowValue_shiftMaps zoneC10 0 10 20 20 (by decide) (by decide) (by decide)]
    exact hval
  have hcond : ((zoneC10.limit : ℚ) < 5 + 1) := by norm_num [zoneC10]
  have hA : Allow zoneC10 0 20 = (false, zoneC10) := by
    simp only [Allow, htp, hval, if_pos hcond]
  have hlim : (shiftMaps zoneC10 10 20).limit = zoneC10.limit := rfl
  have hB : AllowRotateFirst zoneC10 0 20 = (false, shiftMaps zoneC10 10 20) := by
    simp only [AllowRotateFirst, htp, hval', hlim, if_pos hcond]
  refine ⟨by rw [hA], by rw [hB], ?_⟩
  rw [hA, hB]
  decide

/-- Claim C10 (amended): evaluating the weighted estimate for the
requested window pair against the pre-rotation state yields exactly the
same value as rotating first and then evaluating, so both orderings
return the same boolean and, on allow, the same final state; on deny,
check-then-rotate leaves the state untouched while rotate-then-check
leaves the rotated state (observably equivalent, but not identical).
Hypotheses as for claim C1. -/
theorem check_rotate_equiv_spec [DecidableEq K] (z : RatelimitZone K) (k : K) (now : ℤ)
    (hw : 0 < z.window)
    (hTO : wndTrunc now z.window = z.currWndStart ∨
      wndTrunc now z.window ≠ z.prevWndStart) :
    getWindowValue z k (wndTrunc now z.window - z.window) (wndTrunc now z.window) now =
      getWindowValue (shiftMaps z (wndTrunc now z.window - z.window) (wndTrunc now z.window))
        k (wndTrunc now z.window - z.window) (wndTrunc now z.window) now ∧
    (Allow z k now).1 = (AllowRotateFirst z k now).1 ∧
    ((Allow z k now).1 = true → (Allow z k now).2 = (AllowRotateFirst z k now).2) ∧
    ((Allow z k now).1 = false → (Allow z k now).2 = z ∧
      (AllowRotateFirst z k now).2 =
        shiftMaps z (wndTrunc now z.window - z.window) (wndTrunc now z.window)) := by
  set cS := wndTrunc now z.window with hcS
  set pS := cS - z.window with hpS
  have hvals : getWindowValue z k pS cS now =
      getWindowValue (shiftMaps z pS cS) k pS cS now :=
    (getWindowValue_shiftMaps z k pS cS now hw hpS hTO).symm
  have hlim : (shiftMaps z pS cS).limit = z.limit := rfl
  refine ⟨hvals, ?_, ?_, ?_⟩
  all_goals
    by_cases h : (z.limit : ℚ) < getWindowValue z k pS cS now + 1
  · simp [Allow, AllowRotateFirst, getTimePoints, ← hcS, ← hpS, h, hlim, ← hvals]
  · simp [Allow, AllowRotateFirst, getTimePoints, ← hcS, ← hpS, h, hlim, ← hvals]
  · intro hfalse
    have : (Allow z k now).1 = false := by
      simp [Allow, getTimePoints, ← hcS, ← hpS, h]
    rw [hfalse] at this
    exact Bool.noConfusion this
  · intro _
    simp [Allow, AllowRotateFirst, getTimePoints, ← hcS, ← hpS, h, hlim, ← hvals]
  · intro _
    constructor <;> simp [Allow, AllowRotateFirst, getTimePoints, ← hcS, ← hpS, h, hlim, ← hvals]
  · intro hfalse
    have : (Allow z k now).1 = true := by
      simp [Allow, getTimePoints, ← hcS, ← hpS, h]
    rw [hfalse] at this
    exact Bool.noConfusion this

/-- Witness for claim C10's amended theorem at the counterexample state. -/
theorem check_rotate_equiv_spec_witness :
    ((0 : ℤ) < zoneC10.window ∧
      (wndTrunc 20 zoneC10.window = zoneC10.currWndStart ∨
        wndTrunc 20 zoneC10.window ≠ zoneC10.prevWndStart)) ∧
    (Allow zoneC10 0 20).1 = (AllowRotateFirst zoneC10 0 20).1 :=
  ⟨⟨by decide, by decide⟩,
   (check_rotate_equiv_spec zoneC10 0 20 (by decide) (by decide)).2.1⟩

/-! ### Trace invariants

Every zone reachable from `New` through timed calls at non-decreasing
instants keeps its window starts multiples of the window with the previous
one not ahead of the current one (`Wf`), stays behind the clock
(`ReadyAt`), and keeps all counters at or below the limit (`Bounded`). -/

/-- Both stored window starts are multiples of the window and the previous
start is not ahead of the current one. -/
def Wf (z : RatelimitZone K) : Prop :=
  z.window ∣ z.prevWndStart ∧ z.window ∣ z.currWndStart ∧ z.prevWndStart ≤ z.currWndStart

/-- The stored current window start is not ahead of the one a call at
instant `t` would request. -/
def ReadyAt (z : RatelimitZone K) (t : ℤ) : Prop :=
  z.currWndStart ≤ wndTrunc t z.window

/-- Every stored counter is at most the limit. -/
def Bounded (z : RatelimitZone K) : Prop :=
  (∀ k, z.prevMap k ≤ z.limit) ∧ (∀ k, z.currMap k ≤ z.limit)

theorem readyAt_timeOK (z : RatelimitZone K) (t : ℤ) (hwf : Wf z) (hr : ReadyAt z t) :
    wndTrunc t z.window = z.currWndStart ∨ wndTrunc t z.window ≠ z.prevWndStart := by
  by_cases h : wndTrunc t z.window = z.currWndStart
  · exact Or.inl h
  · right
    have h1 := hwf.2.2
    have h2 := hr
    simp only [ReadyAt] at h2
    omega

/-- Outside the requested window pair (and at or after its previous start),
a well-formed zone that is behind the requested current start stores no
counter at all. -/
theorem getCounter_outside_eq_zero (z : RatelimitZone K) (k : K) (cS ws : ℤ)
    (hw : 0 < z.window) (hwf : Wf z) (hC : z.currWndStart ≤ cS)
    (hdcS : z.window ∣ cS) (hws : cS - z.window ≤ ws)
    (h1 : ws ≠ cS) (h2 : ws ≠ cS - z.window) :
    getCounter z k ws = 0 := by
  have hdpS : z.window ∣ (cS - z.window) := dvd_sub hdcS dvd_rfl
  have hwsgt : cS - z.window < ws := lt_of_le_of_ne hws (Ne.symm h2)
  have hCne : ws ≠ z.currWndStart := by
    intro he
    have hdC := hwf.2.1
    rw [he] at hwsgt h1
    have hlt : z.currWndStart < cS := lt_of_le_of_ne hC h1
    have := dvd_lt_le_sub z.window (cS - z.window) z.currWndStart hw hdpS hdC hwsgt
    omega
  have hPne : ws ≠ z.prevWndStart := by
    intro he
    have hdP := hwf.1
    have hPC := hwf.2.2
    rw [he] at hwsgt h1
    have hlt : z.prevWndStart < cS := lt_of_le_of_ne (le_trans hPC hC) h1
    have := dvd_lt_le_sub z.window (cS - z.window) z.prevWndStart hw hdpS hdP hwsgt
    omega
  simp [getCounter, getWndMap, hCne, hPne]

/-- Rotating a well-formed zone that is behind the requested current start
preserves every counter at or after the requested previous start. -/
theorem getCounter_shiftMaps_of_le (z : RatelimitZone K) (cS : ℤ) (k : K) (ws : ℤ)
    (hw : 0 < z.window) (hwf : Wf z) (hC : z.currWndStart ≤ cS)
    (hdcS : z.window ∣ cS) (hws : cS - z.window ≤ ws) :
    getCounter (shiftMaps z (cS - z.window) cS) k ws = getCounter z k ws := by
  by_cases h1 : ws = cS
  · subst h1
    refine getCounter_shiftMaps_curr z (ws - z.window) ws k (by omega) ?_
    by_cases hc : ws = z.currWndStart
    · exact Or.inl hc
    · right
      have := hwf.2.2
      omega
  · by_cases h2 : ws = cS - z.window
    · subst h2
      exact getCounter_shiftMaps_prev z (cS - z.window) cS k (by omega)
    · have hz : getCounter z k ws = 0 :=
        getCounter_outside_eq_zero z k cS ws hw hwf hC hdcS hws h1 h2
      have hcw : (shiftMaps z (cS - z.window) cS).currWndStart = cS := rfl
      have hpw : (shiftMaps z (cS - z.window) cS).prevWndStart = cS - z.window := rfl
      rw [hz]
      simp [getCounter, getWndMap, hcw, hpw, h1, h2]

theorem getCounter_at_curr (z : RatelimitZone K) (k : K) (ws : ℤ)
    (h : ws = z.currWndStart) : getCounter z k ws = z.currMap k := by
  simp [getCounter, getWndMap, h]

/-- The rotated current map never reads above the pre-rotation counter for
the requested current start. -/
theorem shiftMaps_currMap_le (z : RatelimitZone K) (pS cS : ℤ) (k : K)
    (hne : cS ≠ pS) :
    (shiftMaps z pS cS).currMap k ≤ getCounter z k cS := by
  have h1 : (shiftMaps z pS cS).currMap =
      (if cS = z.currWndStart then z.currMap
       else if cS = pS then getWndMapC z pS else fun _ => 0) := by
    simp only [shiftMaps, getWndMapC, getWndMap]
    split_ifs <;> rfl
  rw [h1]
  by_cases hc : cS = z.currWndStart
  · simp [hc, getCounter, getWndMap]
  · simp only [if_neg hc, if_neg hne]
    exact Nat.zero_le _

theorem incCounter_fields [DecidableEq K] (z : RatelimitZone K) (k : K) (ws : ℤ) :
    (incCounter z k ws).window = z.window ∧
    (incCounter z k ws).limit = z.limit ∧
    (incCounter z k ws).vmax = z.vmax ∧
    (incCounter z k ws).prevWndStart = z.prevWndStart ∧
    (incCounter z k ws).currWndStart = z.currWndStart := by
  simp only [incCounter]
  split_ifs <;> exact ⟨rfl, rfl, rfl, rfl, rfl⟩

theorem Allow_fields [DecidableEq K] (z : RatelimitZone K) (k : K) (t : ℤ) :
    (Allow z k t).2.window = z.window ∧
    (Allow z k t).2.limit = z.limit ∧
    (Allow z k t).2.vmax = z.vmax := by
  by_cases h : (z.limit : ℚ) <
      getWindowValue z k (wndTrunc t z.window - z.window) (wndTrunc t z.window) t + 1
  · simp [Allow, getTimePoints, h]
  · simp only [Allow, getTimePoints, if_neg h]
    have hf := incCounter_fields (shiftMaps z (wndTrunc t z.window - z.window)
      (wndTrunc t z.window)) k (wndTrunc t z.window)
    exact ⟨hf.1, hf.2.1, hf.2.2.1⟩

theorem Allow_false_state [DecidableEq K] (z : RatelimitZone K) (k : K) (t : ℤ)
    (h : (z.limit : ℚ) <
      getWindowValue z k (wndTrunc t z.window - z.window) (wndTrunc t z.window) t + 1) :
    Allow z k t = (false, z) := by
  simp [Allow, getTimePoints, h]

theorem Allow_true_state [DecidableEq K] (z : RatelimitZone K) (k : K) (t : ℤ)
    (h : ¬ (z.limit : ℚ) <
      getWindowValue z k (wndTrunc t z.window - z.window) (wndTrunc t z.window) t + 1) :
    Allow z k t =
      (true, incCounter (shiftMaps z (wndTrunc t z.window - z.window) (wndTrunc t z.window))
        k (wndTrunc t z.window)) := by
  simp [Allow, getTimePoints, h]

theorem getCounter_incCounter_ne_curr [DecidableEq K] (z : RatelimitZone K) (kc k : K)
    (ws0 ws : ℤ) (h0 : ws0 = z.currWndStart) (hne : ws ≠ ws0) :
    getCounter (incCounter z kc ws0) k ws = getCounter z k ws := by
  subst h0
  simp only [incCounter, if_pos rfl]
  simp [getCounter, getWndMap, hne]

theorem getCounter_incCounter_curr_other [DecidableEq K] (z : RatelimitZone K) (kc k : K)
    (ws0 : ℤ) (h0 : ws0 = z.currWndStart) (hk : k ≠ kc) :
    getCounter (incCounter z kc ws0) k ws0 = getCounter z k ws0 := by
  subst h0
  simp [incCounter, getCounter, getWndMap, hk]

/-- How one `Allow` call transforms an arbitrary counter at or after the
requested previous window start, in a well-formed zone behind the clock:
only the allowed key's counter in the requested current window moves, by a
wrapping increment. -/
theorem getCounter_Allow_eq [DecidableEq K] (z : RatelimitZone K) (kc k : K) (t ws : ℤ)
    (hw : 0 < z.window) (hwf : Wf z) (hr : ReadyAt z t)
    (hws : wndTrunc t z.window - z.window ≤ ws) :
    getCounter (Allow z kc t).2 k ws =
      (if (Allow z kc t).1 = true ∧ ws = wndTrunc t z.window ∧ k = kc then
        (getCounter z k ws + 1) % z.vmax
      else getCounter z k ws) := by
  have hdcS : z.window ∣ wndTrunc t z.window := wndTrunc_dvd t z.window
  have hC : z.currWndStart ≤ wndTrunc t z.window := hr
  by_cases hcond : (z.limit : ℚ) <
      getWindowValue z kc (wndTrunc t z.window - z.window) (wndTrunc t z.window) t + 1
  · rw [Allow_false_state z kc t hcond]
    simp
  · have htrue : (Allow z kc t).1 = true := by
      rw [Allow_true_state z kc t hcond]
    have hstate : (Allow z kc t).2 =
        incCounter (shiftMaps z (wndTrunc t z.window - z.window) (wndTrunc t z.window)) kc
          (wndTrunc t z.window) := by
      rw [Allow_true_state z kc t hcond]
    rw [hstate]
    set z' := shiftMaps z (wndTrunc t z.window - z.window) (wndTrunc t z.window) with hz'
    have hcw : z'.currWndStart = wndTrunc t z.window := rfl
    have hvm : z'.vmax = z.vmax := rfl
    have hshift : ∀ k' ws', wndTrunc t z.window - z.window ≤ ws' →
        getCounter z' k' ws' = getCounter z k' ws' := fun k' ws' hle =>
      getCounter_shiftMaps_of_le z (wndTrunc t z.window) k' ws' hw hwf hC hdcS hle
    by_cases hwcs : ws = wndTrunc t z.window
    · by_cases hkk : k = kc
      · subst hkk
        rw [if_pos ⟨htrue, hwcs, rfl⟩, hwcs,
          getCounter_incCounter_curr z' k (wndTrunc t z.window) hcw.symm, hvm]
        have : z'.currMap k = getCounter z k (wndTrunc t z.window) := by
          rw [← hshift k (wndTrunc t z.window) (by omega)]
          exact (getCounter_at_curr z' k (wndTrunc t z.window) hcw.symm).symm
        rw [this]
      · rw [if_neg (by tauto), hwcs,
          getCounter_incCounter_curr_other z' kc k (wndTrunc t z.window) hcw.symm hkk]
        exact hshift k (wndTrunc t z.window) (by omega)
    · rw [if_neg (by tauto),
        getCounter_incCounter_ne_curr z' kc k (wndTrunc t z.window) ws hcw.symm hwcs]
      exact hshift k ws hws

theorem Allow_true_iff [DecidableEq K] (z : RatelimitZone K) (k : K) (t : ℤ) :
    (Allow z k t).1 = true ↔
      ¬ (z.limit : ℚ) <
        getWindowValue z k (wndTrunc t z.window - z.window) (wndTrunc t z.window) t + 1 := by
  by_cases h : (z.limit : ℚ) <
      getWindowValue z k (wndTrunc t z.window - z.window) (wndTrunc t z.window) t + 1
  · rw [Allow_false_state z k t h]
    simp [h]
  · rw [Allow_true_state z k t h]
    simp [h]

theorem New_ok_elim {w : ℤ} {l v : ℕ} {z : RatelimitZone K} (h : New K w l v = .ok z) :
    0 < w ∧ l ≠ 0 ∧ z = initZone K w l v := by
  simp only [New] at h
  split_ifs at h with h1 h2
  cases h
  exact ⟨by omega, h2, rfl⟩

theorem wndTrunc_nonneg (t w : ℤ) (ht : 0 ≤ t) (hw : 0 < w) : 0 ≤ wndTrunc t w := by
  have h1 : wndTrunc t w = w * (t / w) := by
    have := Int.emod_add_ediv t w
    simp only [wndTrunc]
    omega
  rw [h1]
  exact mul_nonneg (by omega) (Int.ediv_nonneg ht (by omega))

theorem Wf_initZone (w : ℤ) (l v : ℕ) : Wf (initZone K w l v) :=
  ⟨dvd_zero _, dvd_zero _, le_refl 0⟩

theorem Bounded_initZone (w : ℤ) (l v : ℕ) : Bounded (initZone K w l v) :=
  ⟨fun _ => Nat.zero_le _, fun _ => Nat.zero_le _⟩

theorem ReadyAt_initZone (w : ℤ) (l v : ℕ) (t : ℤ) (ht : 0 ≤ t) (hw : 0 < w) :
    ReadyAt (initZone K w l v) t :=
  wndTrunc_nonneg t w ht hw

theorem Wf_Allow [DecidableEq K] (z : RatelimitZone K) (k : K) (t : ℤ)
    (hw : 0 < z.window) (hwf : Wf z) : Wf (Allow z k t).2 := by
  by_cases h : (z.limit : ℚ) <
      getWindowValue z k (wndTrunc t z.window - z.window) (wndTrunc t z.window) t + 1
  · rw [Allow_false_state z k t h]
    exact hwf
  · rw [Allow_true_state z k t h]
    set z' := shiftMaps z (wndTrunc t z.window - z.window) (wndTrunc t z.window) with hz'
    have hf := incCounter_fields z' k (wndTrunc t z.window)
    have hwin : (incCounter z' k (wndTrunc t z.window)).window = z.window := hf.1
    have hp : (incCounter z' k (wndTrunc t z.window)).prevWndStart =
        wndTrunc t z.window - z.window := hf.2.2.2.1
    have hc : (incCounter z' k (wndTrunc t z.window)).currWndStart =
        wndTrunc t z.window := hf.2.2.2.2
    refine ⟨?_, ?_, ?_⟩
    · rw [hwin, hp]
      exact dvd_sub (wndTrunc_dvd t z.window) dvd_rfl
    · rw [hwin, hc]
      exact wndTrunc_dvd t z.window
    · rw [hp, hc]
      omega

theorem ReadyAt_Allow [DecidableEq K] (z : RatelimitZone K) (k : K) (t t' : ℤ)
    (hw : 0 < z.window) (hr : ReadyAt z t) (htt : t ≤ t') :
    ReadyAt (Allow z k t).2 t' := by
  have hmono := wndTrunc_mono t t' z.window hw htt
  by_cases h : (z.limit : ℚ) <
      getWindowValue z k (wndTrunc t z.window - z.window) (wndTrunc t z.window) t + 1
  · rw [Allow_false_state z k t h]
    exact le_trans hr hmono
  · rw [Allow_true_state z k t h]
    set z' := shiftMaps z (wndTrunc t z.window - z.window) (wndTrunc t z.window) with hz'
    have hf := incCounter_fields z' k (wndTrunc t z.window)
    show (incCounter z' k (wndTrunc t z.window)).currWndStart ≤
      wndTrunc t' (incCounter z' k (wndTrunc t z.window)).window
    rw [hf.2.2.2.2, hf.1]
    exact hmono

theorem getCounter_le_limit (z : RatelimitZone K) (hB : Bounded z) (k : K) (ws : ℤ) :
    getCounter z k ws ≤ z.limit := by
  simp only [getCounter, getWndMap]
  split_ifs
  · exact hB.2 k
  · exact hB.1 k
  · exact Nat.zero_le _

theorem Bounded_shiftMaps (z : RatelimitZone K) (hB : Bounded z) (pS cS : ℤ) :
    Bounded (shiftMaps z pS cS) := by
  have hprev : ∀ k, (shiftMaps z pS cS).prevMap k ≤ z.limit := by
    intro k
    show getWndMapC z pS k ≤ z.limit
    rw [getWndMapC_apply]
    exact getCounter_le_limit z hB k pS
  refine ⟨hprev, ?_⟩
  intro k
  have hB1 : Bounded ({ z with prevMap := getWndMapC z pS, prevWndStart := pS }) :=
    ⟨hprev, hB.2⟩
  show getWndMapC ({ z with prevMap := getWndMapC z pS, prevWndStart := pS }) cS k ≤ z.limit
  rw [getWndMapC_apply]
  exact getCounter_le_limit _ hB1 k cS

theorem Bounded_Allow [DecidableEq K] (z : RatelimitZone K) (k : K) (t : ℤ)
    (hw : 0 < z.window) (hB : Bounded z) : Bounded (Allow z k t).2 := by
  by_cases h : (z.limit : ℚ) <
      getWindowValue z k (wndTrunc t z.window - z.window) (wndTrunc t z.window) t + 1
  · rw [Allow_false_state z k t h]
    exact hB
  · rw [Allow_true_state z k t h]
    set z' := shiftMaps z (wndTrunc t z.window - z.window) (wndTrunc t z.window) with hz'
    have hB' : Bounded z' := Bounded_shiftMaps z hB _ _
    have hlim : z'.limit = z.limit := rfl
    have hcw : z'.currWndStart = wndTrunc t z.window := rfl
    have hinc : incCounter z' k (wndTrunc t z.window) =
        { z' with currMap := fun k' =>
           if k' = k then (z'.currMap k + 1) % z'.vmax else z'.currMap k' } := by
      simp [incCounter, hcw]
    rw [hinc]
    refine ⟨hB'.1, ?_⟩
    intro k'
    show (if k' = k then (z'.currMap k + 1) % z'.vmax else z'.currMap k') ≤ z.limit
    by_cases hk : k' = k
    · rw [if_pos hk]
      have h1 : z'.currMap k ≤ getCounter z k (wndTrunc t z.window) :=
        shiftMaps_currMap_le z _ _ k (by omega)
      have h2 : (getCounter z k (wndTrunc t z.window) : ℚ) ≤
          getWindowValue z k (wndTrunc t z.window - z.window) (wndTrunc t z.window) t :=
        currCtr_le_getWindowValue z k t hw
      have h3 : getCounter z k (wndTrunc t z.window) + 1 ≤ z.limit := by
        have : (getCounter z k (wndTrunc t z.window) : ℚ) + 1 ≤ (z.limit : ℚ) := by
          linarith [not_lt.mp h]
        exact_mod_cast this
      calc (z'.currMap k + 1) % z'.vmax ≤ z'.currMap k + 1 := Nat.mod_le _ _
        _ ≤ z.limit := by omega
    · rw [if_neg hk]
      exact hB'.2 k'

theorem runAllows_fields [DecidableEq K] (tr : List (ℤ × K)) :
    ∀ z : RatelimitZone K, (runAllows z tr).1.window = z.window ∧
      (runAllows z tr).1.limit = z.limit ∧ (runAllows z tr).1.vmax = z.vmax := by
  induction tr with
  | nil => exact fun z => ⟨rfl, rfl, rfl⟩
  | cons p rest ih =>
    intro z
    obtain ⟨t, k⟩ := p
    have h1 := ih (Allow z k t).2
    have h2 := Allow_fields z k t
    exact ⟨h1.1.trans h2.1, h1.2.1.trans h2.2.1, h1.2.2.trans h2.2.2⟩

theorem runAllows_bounded [DecidableEq K] (tr : List (ℤ × K)) :
    ∀ z : RatelimitZone K, 0 < z.window → Bounded z → Bounded (runAllows z tr).1 := by
  induction tr with
  | nil => exact fun z _ hB => hB
  | cons p rest ih =>
    intro z hw hB
    obtain ⟨t, k⟩ := p
    exact ih (Allow z k t).2 ((Allow_fields z k t).1.symm ▸ hw) (Bounded_Allow z k t hw hB)

/-! ### Claim C4: counters never exceed the limit, increments never wrap -/

/-- Claim C4: for every limiter constructed by `New` and every key, after
any sequence of `Allow` calls at non-decreasing instants every counter
stored in the current and previous mappings is at most the limit; at each
call that returned `true` the estimate plus one did not exceed the limit,
and the increment performed by that call does not wrap at the counter
width (`limit < vmax` is the Go typing guarantee `limit : V`). -/
theorem allow_trace_bounded (w : ℤ) (limit vmax : ℕ) (z0 : RatelimitZone ℕ)
    (tr : List (ℤ × ℕ)) (hz0 : New ℕ w limit vmax = .ok z0) (hlv : limit < vmax)
    (hmono : List.Chain' (· ≤ ·) (tr.map Prod.fst)) :
    ((∀ k, (runAllows z0 tr).1.prevMap k ≤ limit ∧ (runAllows z0 tr).1.currMap k ≤ limit) ∧
     (∀ pre t k rest, tr = pre ++ (t, k) :: rest →
       (Allow (runAllows z0 pre).1 k t).1 = true →
         getWindowValue (runAllows z0 pre).1 k (wndTrunc t w - w) (wndTrunc t w) t + 1 ≤
           (limit : ℚ) ∧
         (getCounter (shiftMaps (runAllows z0 pre).1 (wndTrunc t w - w) (wndTrunc t w)) k
             (wndTrunc t w) + 1) % vmax =
           getCounter (shiftMaps (runAllows z0 pre).1 (wndTrunc t w - w) (wndTrunc t w)) k
             (wndTrunc t w) + 1)) := by
  obtain ⟨hw, hl0, hzi⟩ := New_ok_elim hz0
  subst hzi
  have hB0 : Bounded (initZone ℕ w limit vmax) := Bounded_initZone w limit vmax
  constructor
  · intro k
    have hB := runAllows_bounded tr (initZone ℕ w limit vmax) hw hB0
    have hlim := (runAllows_fields tr (initZone ℕ w limit vmax)).2.1
    have h1 := hB.1 k
    have h2 := hB.2 k
    rw [hlim] at h1 h2
    exact ⟨h1, h2⟩
  · intro pre t k rest htr htrue
    set zi := (runAllows (initZone ℕ w limit vmax) pre).1 with hzi
    have hfi := runAllows_fields pre (initZone ℕ w limit vmax)
    have hwin : zi.window = w := hfi.1
    have hlim : zi.limit = limit := hfi.2.1
    have hvm : zi.vmax = vmax := hfi.2.2
    have hBi : Bounded zi := runAllows_bounded pre (initZone ℕ w limit vmax) hw hB0
    have hcond := (Allow_true_iff zi k t).mp htrue
    rw [hwin, hlim] at hcond
    have hval : getWindowValue zi k (wndTrunc t w - w) (wndTrunc t w) t + 1 ≤ (limit : ℚ) := by
      have := not_lt.mp hcond
      linarith
    refine ⟨hval, ?_⟩
    have hc1 : getCounter (shiftMaps zi (wndTrunc t w - w) (wndTrunc t w)) k (wndTrunc t w) =
        (shiftMaps zi (wndTrunc t w - w) (wndTrunc t w)).currMap k :=
      getCounter_at_curr _ k _ rfl
    have hc2 : (shiftMaps zi (wndTrunc t w - w) (wndTrunc t w)).currMap k ≤
        getCounter zi k (wndTrunc t w) :=
      shiftMaps_currMap_le zi _ _ k (by omega)
    have hc3 : (getCounter zi k (wndTrunc t w) : ℚ) ≤
        getWindowValue zi k (wndTrunc t w - w) (wndTrunc t w) t := by
      have := currCtr_le_getWindowValue zi k t (hwin ▸ hw)
      rw [hwin] at this
      exact this
    have hc4 : getCounter zi k (wndTrunc t w) + 1 ≤ limit := by
      have : (getCounter zi k (wndTrunc t w) : ℚ) + 1 ≤ (limit : ℚ) := by linarith
      exact_mod_cast this
    rw [hc1]
    exact Nat.mod_eq_of_lt (by omega)

/-- Witness for claim C4 on a short concrete trace. -/
theorem allow_trace_bounded_witness :
    (New ℕ 10 5 256 = .ok (initZone ℕ 10 5 256) ∧ (5 : ℕ) < 256 ∧
      List.Chain' (· ≤ ·) (([((0 : ℤ), (0 : ℕ)), (1, 0)]).map Prod.fst)) ∧
    (∀ k, (runAllows (initZone ℕ 10 5 256) [((0 : ℤ), (0 : ℕ)), (1, 0)]).1.prevMap k ≤ 5 ∧
      (runAllows (initZone ℕ 10 5 256) [((0 : ℤ), (0 : ℕ)), (1, 0)]).1.currMap k ≤ 5) :=
  ⟨⟨rfl, by decide, by simp⟩,
   (allow_trace_bounded 10 5 256 (initZone ℕ 10 5 256) [((0 : ℤ), (0 : ℕ)), (1, 0)]
     rfl (by decide) (by simp)).1⟩

/-! ### Claim C9: noninterference between keys -/

/-- Two zones with matching configuration and well-formed window state,
both behind the clock at `t`, agreeing on every counter of every key other
than `A` at or after the previous window start a call at `t` would
request. -/
def GoodPair (A : K) (t : ℤ) (z1 z2 : RatelimitZone K) : Prop :=
  z1.window = z2.window ∧ z1.limit = z2.limit ∧ z1.vmax = z2.vmax ∧
  Wf z1 ∧ Wf z2 ∧ ReadyAt z1 t ∧ ReadyAt z2 t ∧
  ∀ k, k ≠ A → ∀ ws, wndTrunc t z1.window - z1.window ≤ ws →
    getCounter z1 k ws = getCounter z2 k ws

theorem GoodPair_mono (A : K) (t t' : ℤ) (z1 z2 : RatelimitZone K)
    (hw : 0 < z1.window) (htt : t ≤ t') (hg : GoodPair A t z1 z2) :
    GoodPair A t' z1 z2 := by
  obtain ⟨hww, hll, hvv, hwf1, hwf2, hr1, hr2, hag⟩ := hg
  have hm1 := wndTrunc_mono t t' z1.window hw htt
  have hm2 := wndTrunc_mono t t' z2.window (hww ▸ hw) htt
  refine ⟨hww, hll, hvv, hwf1, hwf2, le_trans hr1 hm1, le_trans hr2 hm2, ?_⟩
  intro k hk ws hws
  exact hag k hk ws (by omega)

theorem GoodPair_stepA [DecidableEq K] (A : K) (t : ℤ) (z1 z2 : RatelimitZone K)
    (hw : 0 < z1.window) (hg : GoodPair A t z1 z2) :
    GoodPair A t (Allow z1 A t).2 z2 := by
  obtain ⟨hww, hll, hvv, hwf1, hwf2, hr1, hr2, hag⟩ := hg
  have hf := Allow_fields z1 A t
  refine ⟨hf.1.trans hww, hf.2.1.trans hll, hf.2.2.trans hvv,
    Wf_Allow z1 A t hw hwf1, hwf2, ReadyAt_Allow z1 A t t hw hr1 le_rfl, hr2, ?_⟩
  intro k hk ws hws
  rw [hf.1] at hws
  rw [getCounter_Allow_eq z1 A k t ws hw hwf1 hr1 hws,
    if_neg (fun hcc => hk hcc.2.2)]
  exact hag k hk ws hws

theorem GoodPair_step [DecidableEq K] (A : K) (t : ℤ) (z1 z2 : RatelimitZone K)
    (k : K) (hk : k ≠ A) (hw : 0 < z1.window) (hg : GoodPair A t z1 z2) :
    (Allow z1 k t).1 = (Allow z2 k t).1 ∧
    GoodPair A t (Allow z1 k t).2 (Allow z2 k t).2 := by
  obtain ⟨hww, hll, hvv, hwf1, hwf2, hr1, hr2, hag⟩ := hg
  have hw2 : 0 < z2.window := hww ▸ hw
  have hcS : wndTrunc t z2.window = wndTrunc t z1.window := by rw [hww]
  have hvals : getWindowValue z1 k (wndTrunc t z1.window - z1.window) (wndTrunc t z1.window) t
      = getWindowValue z2 k (wndTrunc t z1.window - z1.window) (wndTrunc t z1.window) t := by
    simp only [getWindowValue]
    rw [hag k hk (wndTrunc t z1.window - z1.window) le_rfl,
      hag k hk (wndTrunc t z1.window) (by omega), hww]
  have hshape : getWindowValue z2 k (wndTrunc t z2.window - z2.window) (wndTrunc t z2.window) t
      = getWindowValue z1 k (wndTrunc t z1.window - z1.window) (wndTrunc t z1.window) t := by
    rw [hww] at hvals ⊢
    exact hvals.symm
  have hdec : (Allow z1 k t).1 = (Allow z2 k t).1 := by
    by_cases hc : (z1.limit : ℚ) <
        getWindowValue z1 k (wndTrunc t z1.window - z1.window) (wndTrunc t z1.window) t + 1
    · rw [Allow_false_state z1 k t hc,
        Allow_false_state z2 k t (by rw [hshape, ← hll]; exact hc)]
    · rw [Allow_true_state z1 k t hc,
        Allow_true_state z2 k t (by rw [hshape, ← hll]; exact hc)]
  have hf1 := Allow_fields z1 k t
  have hf2 := Allow_fields z2 k t
  refine ⟨hdec, hf1.1.trans (hww.trans hf2.1.symm), hf1.2.1.trans (hll.trans hf2.2.1.symm),
    hf1.2.2.trans (hvv.trans hf2.2.2.symm),
    Wf_Allow z1 k t hw hwf1, Wf_Allow z2 k t hw2 hwf2,
    ReadyAt_Allow z1 k t t hw hr1 le_rfl, ReadyAt_Allow z2 k t t hw2 hr2 le_rfl, ?_⟩
  intro k' hk' ws hws
  rw [hf1.1] at hws
  have h1 := getCounter_Allow_eq z1 k k' t ws hw hwf1 hr1 hws
  have h2 := getCounter_Allow_eq z2 k k' t ws hw2 hwf2 hr2 (by rw [hww] at hws; exact hws)
  rw [h1, h2]
  by_cases hcc : (Allow z1 k t).1 = true ∧ ws = wndTrunc t z1.window ∧ k' = k
  · rw [if_pos hcc, if_pos ⟨hdec ▸ hcc.1, hcS.symm ▸ hcc.2.1, hcc.2.2⟩,
      hag k' hk' ws hws, hvv]
  · rw [if_neg hcc,
      if_neg (fun hc2 => hcc ⟨hdec.trans hc2.1, hc2.2.1.trans hcS, hc2.2.2⟩)]
    exact hag k' hk' ws hws

/-- Last element of a list of instants, defaulting to `t0`. -/
def lastT (t0 : ℤ) (l : List ℤ) : ℤ := l.foldl (fun _ x => x) t0

theorem lastT_cons (t0 x : ℤ) (l : List ℤ) : lastT t0 (x :: l) = lastT x l := rfl

theorem chain'_take_last :
    ∀ (l : List ℤ) (t0 tE : ℤ), List.Chain' (· ≤ ·) (t0 :: (l ++ [tE])) →
      List.Chain' (· ≤ ·) (t0 :: l) ∧ lastT t0 l ≤ tE := by
  intro l
  induction l with
  | nil =>
    intro t0 tE h
    exact ⟨List.chain'_singleton t0, (List.chain'_cons.mp h).1⟩
  | cons x xs ih =>
    intro t0 tE h
    rw [List.cons_append] at h
    have h1 := List.chain'_cons.mp h
    have h2 := ih x tE h1.2
    exact ⟨List.chain'_cons.mpr ⟨h1.1, h2.1⟩, by rw [lastT_cons]; exact h2.2⟩

/-- Inductive core of the noninterference argument: removing the calls for
key `A` from a monotonically timed trace leaves every other key's boolean
outcomes unchanged and keeps the two final states `GoodPair`-related. -/
theorem runAllows_filter_eraseA [DecidableEq K] (A : K) :
    ∀ (tr : List (ℤ × K)) (t0 : ℤ) (z1 z2 : RatelimitZone K),
    0 < z1.window → GoodPair A t0 z1 z2 →
    List.Chain' (· ≤ ·) (t0 :: tr.map Prod.fst) →
    ((runAllows z1 tr).2.filter (fun o => decide (o.1 ≠ A)) =
      (runAllows z2 (tr.filter (fun p => decide (p.2 ≠ A)))).2) ∧
    GoodPair A (lastT t0 (tr.map Prod.fst)) (runAllows z1 tr).1
      (runAllows z2 (tr.filter (fun p => decide (p.2 ≠ A)))).1 := by
  intro tr
  induction tr with
  | nil =>
    intro t0 z1 z2 hw hg hchain
    exact ⟨rfl, hg⟩
  | cons p rest ih =>
    intro t0 z1 z2 hw hg hchain
    obtain ⟨t, k⟩ := p
    rw [List.map_cons] at hchain
    have hc := List.chain'_cons.mp hchain
    have hgt : GoodPair A t z1 z2 := GoodPair_mono A t0 t z1 z2 hw hc.1 hg
    by_cases hk : k = A
    · subst hk
      have hg' : GoodPair k t (Allow z1 k t).2 z2 := GoodPair_stepA k t z1 z2 hw hgt
      have hw' : 0 < (Allow z1 k t).2.window := by
        rw [(Allow_fields z1 k t).1]
        exact hw
      have hih := ih t (Allow z1 k t).2 z2 hw' hg' hc.2
      have hfilL : (runAllows z1 ((t, k) :: rest)).2 =
          (k, (Allow z1 k t).1) :: (runAllows (Allow z1 k t).2 rest).2 := rfl
      have hfilR : ((t, k) :: rest).filter (fun p => decide (p.2 ≠ k)) =
          rest.filter (fun p => decide (p.2 ≠ k)) := by
        rw [List.filter_cons, if_neg (by simp)]
      constructor
      · rw [hfilL, hfilR, List.filter_cons, if_neg (by simp)]
        exact hih.1
      · rw [hfilR, List.map_cons, lastT_cons]
        exact hih.2
    · have hstep := GoodPair_step A t z1 z2 k hk hw hgt
      have hw' : 0 < (Allow z1 k t).2.window := by
        rw [(Allow_fields z1 k t).1]
        exact hw
      have hih := ih t (Allow z1 k t).2 (Allow z2 k t).2 hw' hstep.2 hc.2
      have hfilR : ((t, k) :: rest).filter (fun p => decide (p.2 ≠ A)) =
          (t, k) :: rest.filter (fun p => decide (p.2 ≠ A)) := by
        simp [List.filter_cons, hk]
      constructor
      · show ((k, (Allow z1 k t).1) :: (runAllows (Allow z1 k t).2 rest).2).filter
            (fun o => decide (o.1 ≠ A)) = _
        rw [hfilR, List.filter_cons]
        rw [if_pos (by simp [hk])]
        show _ = (k, (Allow z2 k t).1) :: (runAllows (Allow z2 k t).2
          (rest.filter (fun p => decide (p.2 ≠ A)))).2
        rw [hstep.1, hih.1]
      · rw [hfilR, List.map_cons, lastT_cons]
        exact hih.2

/-- Claim C9: per-key independence.  With `A ≠ B`, running a
monotonically timed trace of `Allow` calls from a freshly constructed
limiter and running the same trace with every call for key `A` removed
produces identical boolean outcomes for the calls of key `B` (indeed for
every key other than `A`) and the same `GetWindowValue` estimate for `B`
at any later instant — inserting `Allow` calls for `A` anywhere never
changes `B`'s observations. -/
theorem allow_noninterference (w : ℤ) (limit vmax : ℕ) (A B : ℕ) (hAB : A ≠ B)
    (z0 : RatelimitZone ℕ) (hz0 : New ℕ w limit vmax = .ok z0)
    (tr : List (ℤ × ℕ)) (tE : ℤ)
    (hchain : List.Chain' (· ≤ ·) ((0 : ℤ) :: (tr.map Prod.fst ++ [tE]))) :
    ((runAllows z0 tr).2.filter (fun o => decide (o.1 = B)) =
      (runAllows z0 (tr.filter (fun p => decide (p.2 ≠ A)))).2.filter
        (fun o => decide (o.1 = B))) ∧
    GetWindowValue (runAllows z0 tr).1 B tE =
      GetWindowValue (runAllows z0 (tr.filter (fun p => decide (p.2 ≠ A)))).1 B tE := by
  obtain ⟨hw, hl0, hzi⟩ := New_ok_elim hz0
  subst hzi
  have hsplit := chain'_take_last (tr.map Prod.fst) 0 tE hchain
  have hready : ReadyAt (initZone ℕ w limit vmax) 0 :=
    ReadyAt_initZone w limit vmax 0 le_rfl hw
  have hginit : GoodPair A 0 (initZone ℕ w limit vmax) (initZone ℕ w limit vmax) :=
    ⟨rfl, rfl, rfl, Wf_initZone w limit vmax, Wf_initZone w limit vmax,
     hready, hready, fun _ _ _ _ => rfl⟩
  have hmain := runAllows_filter_eraseA A tr 0 (initZone ℕ w limit vmax)
    (initZone ℕ w limit vmax) hw hginit hsplit.1
  have hwfin : 0 < (runAllows (initZone ℕ w limit vmax) tr).1.window := by
    rw [(runAllows_fields tr (initZone ℕ w limit vmax)).1]
    exact hw
  have hgE := GoodPair_mono A (lastT 0 (tr.map Prod.fst)) tE _ _ hwfin hsplit.2 hmain.2
  constructor
  · have hfun : (fun (o : ℕ × Bool) => decide (o.1 = B)) =
        (fun o => decide (o.1 = B) && decide (o.1 ≠ A)) := by
      funext o
      by_cases hb : o.1 = B
      · simp [hb, Ne.symm hAB]
      · simp [hb]
    have hBfilter : ∀ (l : List (ℕ × Bool)),
        l.filter (fun o => decide (o.1 = B)) =
          (l.filter (fun o => decide (o.1 ≠ A))).filter (fun o => decide (o.1 = B)) := by
      intro l
      rw [List.filter_filter, ← hfun]
    rw [hBfilter, hmain.1]
  · obtain ⟨hww, hll, hvv, hwf1, hwf2, hr1, hr2, hag⟩ := hgE
    have hfw1 : (runAllows (initZone ℕ w limit vmax) tr).1.window = w :=
      (runAllows_fields tr (initZone ℕ w limit vmax)).1
    have hfw2 : (runAllows (initZone ℕ w limit vmax)
        (tr.filter (fun p => decide (p.2 ≠ A)))).1.window = w :=
      (runAllows_fields (tr.filter (fun p => decide (p.2 ≠ A))) (initZone ℕ w limit vmax)).1
    simp only [GetWindowValue, GetWindowValueST, getTimePoints, getWindowValue]
    rw [hfw1, hfw2,
      hag B (Ne.symm hAB) (wndTrunc tE w - w) (by rw [hfw1]),
      hag B (Ne.symm hAB) (wndTrunc tE w) (by rw [hfw1]; omega)]

/-- Witness for claim C9 on a short concrete trace: erasing key `0`'s
calls leaves key `1`'s outcomes unchanged. -/
theorem allow_noninterference_witness :
    ((0 : ℕ) ≠ 1 ∧ New ℕ 10 5 256 = .ok (initZone ℕ 10 5 256) ∧
      List.Chain' (· ≤ ·)
        ((0 : ℤ) :: (([((0 : ℤ), (0 : ℕ)), (0, 1), (1, 0)]).map Prod.fst ++ [2]))) ∧
    ((runAllows (initZone ℕ 10 5 256) [((0 : ℤ), (0 : ℕ)), (0, 1), (1, 0)]).2.filter
        (fun o => decide (o.1 = 1)) =
      (runAllows (initZone ℕ 10 5 256)
        (([((0 : ℤ), (0 : ℕ)), (0, 1), (1, 0)]).filter (fun p => decide (p.2 ≠ 0)))).2.filter
        (fun o => decide (o.1 = 1))) :=
  ⟨⟨by decide, rfl, by simp⟩,
   (allow_noninterference 10 5 256 0 1 (by decide) (initZone ℕ 10 5 256) rfl
      [((0 : ℤ), (0 : ℕ)), (0, 1), (1, 0)] 2 (by simp)).1⟩

end Rlzone
